import Mathlib

/-!
Shallow embedding of the 2-D scene-graph geometry implemented in
StanfordCPPLib/graphics/gobjects.cpp, together with theorems checking the
specified behaviour of that code.

Conventions of the embedding:
- C++ doubles are modelled as exact rationals; every definition is a
  direct transcription of the corresponding C++ function.
- A call that aborts through the libraries contract-checking facility
  (require.h / error, which are outside the embedded translation unit and
  are therefore modelled from the specification text) is modelled as an
  Option result: none is the abort, some is the normal return.
- floatingPointEqual (declared in gmath.h, outside the translation unit)
  is modelled from the specification text, which describes the guarded
  cases as comparisons with 0 (rx or ry approximately 0); over exact
  rationals it becomes plain equality.
-/

namespace GObjects

/-- Value type mirroring GRectangle (x, y, width, height). -/
structure GRectangle where
  x : ℚ
  y : ℚ
  width : ℚ
  height : ℚ
deriving DecidableEq, Repr

/-- Modelled from the spec: GRectangle.contains lives in gtypes.cpp, outside
the embedded translation unit.  The spec describes bounds as the tightly
enclosing axis-aligned box and treats boundary points as accepted, so the
box is taken closed on all four sides. -/
def rectContains (r : GRectangle) (px py : ℚ) : Bool :=
  decide (r.x ≤ px) && decide (px ≤ r.x + r.width) &&
  decide (r.y ≤ py) && decide (py ≤ r.y + r.height)

/-- Value type mirroring one polygon vertex (QPointF). -/
structure GPt where
  x : ℚ
  y : ℚ
deriving DecidableEq, Repr

/- ---------------------------------------------------------------------
GObject base state and mutators (gobjects.cpp lines 317-469).
--------------------------------------------------------------------- -/

/-- The base-class state of GObject that the mutator claims are about:
position, size, opacity, visibility and the has-been-transformed flag. -/
structure GObjectState where
  x : ℚ
  y : ℚ
  width : ℚ
  height : ℚ
  opacity : ℚ
  visible : Bool
  transformed : Bool
deriving DecidableEq, Repr

/-- GObject.setOpacity: require.inRange(opacity, 0.0, 1.0) aborts unless
0 <= opacity <= 1 (the bound check itself is modelled from the spec, since
require.h is outside the translation unit); then the field is assigned. -/
def setOpacity (s : GObjectState) (o : ℚ) : Option GObjectState :=
  if 0 ≤ o ∧ o ≤ 1 then some { s with opacity := o } else none

/-- GObject.setSize: aborts when the object has been transformed, otherwise
assigns width and height. -/
def setSize (s : GObjectState) (w h : ℚ) : Option GObjectState :=
  if s.transformed then none
  else some { s with width := w, height := h }

/-- GObject.setWidth forwards to setSize(width, getHeight()). -/
def setWidth (s : GObjectState) (w : ℚ) : Option GObjectState :=
  setSize s w s.height

/-- GObject.setHeight forwards to setSize(getWidth(), height). -/
def setHeight (s : GObjectState) (h : ℚ) : Option GObjectState :=
  setSize s s.width h

/-- GObject.setBounds assigns x, y, width and height directly, with no
check of the transformed flag (gobjects.cpp lines 317-323). -/
def setBounds (s : GObjectState) (x y w h : ℚ) : GObjectState :=
  { s with x := x, y := y, width := w, height := h }

/- ---------------------------------------------------------------------
GImage pixel access (gobjects.cpp lines 998-1009).
--------------------------------------------------------------------- -/

/-- GImage state: intrinsic integer pixel dimensions (the C++ code casts
its stored doubles to int before the range check) and the wrapped QImage
pixel buffer, modelled as a function from coordinates to packed RGB. -/
structure GImageState where
  width : Int
  height : Int
  pixels : Int → Int → Int

/-- GImage.getPixel: require.inRange2D(x, y, width - 1, height - 1) aborts
unless 0 <= x <= width - 1 and 0 <= y <= height - 1 (the bound check is
modelled from the spec, require.h being outside the translation unit);
then the buffer is read. -/
def gImageGetPixel (img : GImageState) (x y : Int) : Option Int :=
  if 0 ≤ x ∧ x ≤ img.width - 1 ∧ 0 ≤ y ∧ y ≤ img.height - 1 then
    some (img.pixels x y)
  else
    none

/-- GImage.setPixel: the source performs no range check at all; it writes
straight into the buffer (gobjects.cpp lines 1007-1009).  The Option
wrapper keeps the signature comparable with getPixel: the result is
always some, because no abort path exists in the source. -/
def gImageSetPixel (img : GImageState) (x y rgb : Int) : Option GImageState :=
  some { img with pixels := fun a b => if a = x ∧ b = y then rgb else img.pixels a b }

/- ---------------------------------------------------------------------
GCompound.getBounds (gobjects.cpp lines 751-769).
--------------------------------------------------------------------- -/

/-- GCompound.getBounds as written in the source: starting from the
sentinels 1E20 and -1E20, it folds min over each childs bounds.getX(),
min over bounds.getY(), max over bounds.getX() and max over
bounds.getY(), then translates by the compounds own anchor and returns
(xMin + x, yMin + y, xMax - xMin, yMax - yMin).  The children enter only
through their bounds rectangles, which are the functions sole input
here. -/
def gCompoundGetBounds (x y : ℚ) (childBounds : List GRectangle) : GRectangle :=
  let p := childBounds.foldl
    (fun acc b =>
      (min acc.1 b.x, min acc.2.1 b.y, max acc.2.2.1 b.x, max acc.2.2.2 b.y))
    ((10 : ℚ) ^ 20, (10 : ℚ) ^ 20, -(10 : ℚ) ^ 20, -(10 : ℚ) ^ 20)
  ⟨p.1 + x, p.2.1 + y, p.2.2.1 - p.1, p.2.2.2 - p.2.1⟩

/-- Defined from the spec wording, for comparison with the source: the
union bounding box of the children bounds, i.e. min over left and top
edges and max over right (x + width) and bottom (y + height) edges,
translated by the compounds anchor, with the same out-of-range sentinels
for an empty child list. -/
def unionBoundsSpec (x y : ℚ) (childBounds : List GRectangle) : GRectangle :=
  let p := childBounds.foldl
    (fun acc b =>
      (min acc.1 b.x, min acc.2.1 b.y,
       max acc.2.2.1 (b.x + b.width), max acc.2.2.2 (b.y + b.height)))
    ((10 : ℚ) ^ 20, (10 : ℚ) ^ 20, -(10 : ℚ) ^ 20, -(10 : ℚ) ^ 20)
  ⟨p.1 + x, p.2.1 + y, p.2.2.1 - p.1, p.2.2.2 - p.2.1⟩

/- ---------------------------------------------------------------------
GPolygon.getBounds / getWidth / getHeight (gobjects.cpp lines 1289-1336).
--------------------------------------------------------------------- -/

/-- GPolygon.getBounds: min/max over all vertex coordinates (the loop
overwrites its zero initialisers unconditionally at i = 0), translated by
the anchor position. -/
def gPolygonGetBounds (x y : ℚ) (V : List GPt) : GRectangle :=
  match V with
  | [] => ⟨0 + x, 0 + y, 0, 0⟩
  | v :: rest =>
    let p := rest.foldl
      (fun acc q =>
        (min acc.1 q.x, min acc.2.1 q.y, max acc.2.2.1 q.x, max acc.2.2.2 q.y))
      (v.x, v.y, v.x, v.y)
    ⟨p.1 + x, p.2.1 + y, p.2.2.1 - p.1, p.2.2.2 - p.2.1⟩

/-- GPolygon.getWidth as written in the source: it returns
getBounds().getHeight() (gobjects.cpp lines 1334-1336). -/
def gPolygonGetWidth (x y : ℚ) (V : List GPt) : ℚ :=
  (gPolygonGetBounds x y V).height

/-- GPolygon.getHeight: returns getBounds().getHeight(). -/
def gPolygonGetHeight (x y : ℚ) (V : List GPt) : ℚ :=
  (gPolygonGetBounds x y V).height

/- ---------------------------------------------------------------------
Claim theorems: C1, C3, C4, C6, C10.
--------------------------------------------------------------------- -/

/-- Claim C1 (code bug): the claim says GCompound.getBounds returns the
union bounding box of the childrens bounds (max over right and bottom
edges).  The source instead takes the max over the left and top edges
only, so a compound at the origin holding a single child of bounds
(0,0,10,10) gets the degenerate box (0,0,0,0) where the union box is
(0,0,10,10). -/
theorem compound_bounds_ignores_child_extents :
    gCompoundGetBounds 0 0 [⟨0, 0, 10, 10⟩] = ⟨0, 0, 0, 0⟩ ∧
    unionBoundsSpec 0 0 [⟨0, 0, 10, 10⟩] = ⟨0, 0, 10, 10⟩ ∧
    gCompoundGetBounds 0 0 [⟨0, 0, 10, 10⟩] ≠ unionBoundsSpec 0 0 [⟨0, 0, 10, 10⟩] := by
  refine ⟨?_, ?_, ?_⟩ <;>
    norm_num [gCompoundGetBounds, unionBoundsSpec, min_def, max_def,
      GRectangle.mk.injEq]

/-- Claim C3, counterexample: the claim says both getPixel and setPixel
validate coordinates and fail out of range.  On a 2 by 2 image, setPixel
at the out-of-range coordinates (5,5) does not fail: the source contains
no range check in setPixel. -/
theorem setpixel_skips_range_check :
    (gImageSetPixel ⟨2, 2, fun _ _ => 0⟩ 5 5 99).isSome = true ∧
    ¬ (0 ≤ (5 : Int) ∧ (5 : Int) ≤ (⟨2, 2, fun _ _ => 0⟩ : GImageState).width - 1 ∧
       0 ≤ (5 : Int) ∧ (5 : Int) ≤ (⟨2, 2, fun _ _ => 0⟩ : GImageState).height - 1) := by
  exact ⟨rfl, by decide⟩

/-- Claim C3, amended: getPixel validates both coordinates against the
current width and height and aborts out of range, while setPixel performs
no validation and always succeeds. -/
theorem pixel_access_validation (img : GImageState) (x y rgb : Int) :
    ((gImageGetPixel img x y).isSome = true ↔
      (0 ≤ x ∧ x ≤ img.width - 1 ∧ 0 ≤ y ∧ y ≤ img.height - 1)) ∧
    (gImageSetPixel img x y rgb).isSome = true := by
  constructor
  · unfold gImageGetPixel
    by_cases h : 0 ≤ x ∧ x ≤ img.width - 1 ∧ 0 ≤ y ∧ y ≤ img.height - 1 <;>
      simp [h]
  · rfl

/-- Claim C4, counterexample: the claim says every direct width/height
mutation on a transformed shape is rejected and leaves the size
unchanged.  setBounds mutates width on a transformed shape without any
failure: starting from a transformed state of width 3, setBounds makes
the width 50. -/
theorem setbounds_bypasses_transform_check :
    (⟨0, 0, 3, 3, 1, true, true⟩ : GObjectState).transformed = true ∧
    (setBounds ⟨0, 0, 3, 3, 1, true, true⟩ 0 0 50 50).width = 50 := by
  exact ⟨rfl, rfl⟩

/-- Claim C4, amended: on a transformed shape, setSize and its
derivatives setWidth and setHeight are rejected (abort, so width and
height stay as they were), but setBounds bypasses the check and mutates
position and size unconditionally. -/
theorem transformed_size_mutation (s : GObjectState) (w h x y : ℚ)
    (ht : s.transformed = true) :
    setSize s w h = none ∧ setWidth s w = none ∧ setHeight s h = none ∧
    setBounds s x y w h = { s with x := x, y := y, width := w, height := h } := by
  refine ⟨?_, ?_, ?_, rfl⟩ <;> simp [setSize, setWidth, setHeight, ht]

/-- Claim C4, witness for the amended theorem at a concrete transformed
state. -/
theorem transformed_size_mutation_witness :
    setSize ⟨0, 0, 3, 3, 1, true, true⟩ 7 8 = none ∧
    setWidth ⟨0, 0, 3, 3, 1, true, true⟩ 7 = none ∧
    setHeight ⟨0, 0, 3, 3, 1, true, true⟩ 8 = none ∧
    setBounds ⟨0, 0, 3, 3, 1, true, true⟩ 1 2 7 8 = ⟨1, 2, 7, 8, 1, true, true⟩ := by
  exact transformed_size_mutation ⟨0, 0, 3, 3, 1, true, true⟩ 7 8 1 2 rfl

/-- Claim C6: setOpacity succeeds exactly when 0 <= o <= 1, storing the
new opacity and touching nothing else; outside that range it aborts, so
the state is unchanged. -/
theorem setopacity_range (s : GObjectState) (o : ℚ) :
    ((0 ≤ o ∧ o ≤ 1) → setOpacity s o = some { s with opacity := o }) ∧
    (¬ (0 ≤ o ∧ o ≤ 1) → setOpacity s o = none) := by
  constructor
  · intro h; simp [setOpacity, h]
  · intro h; simp [setOpacity, h]

/-- Claim C6, witness: a concrete in-range call succeeds and a concrete
out-of-range call aborts. -/
theorem setopacity_range_witness :
    setOpacity ⟨0, 0, 3, 3, 1, true, false⟩ (1 / 2) =
      some ⟨0, 0, 3, 3, 1 / 2, true, false⟩ ∧
    setOpacity ⟨0, 0, 3, 3, 1, true, false⟩ 2 = none := by
  constructor
  · exact (setopacity_range ⟨0, 0, 3, 3, 1, true, false⟩ (1 / 2)).1 (by norm_num)
  · exact (setopacity_range ⟨0, 0, 3, 3, 1, true, false⟩ 2).2 (by norm_num)

/-- Claim C10: GPolygon.getWidth returns the height of the bounding box,
the same value as getHeight; the boxes horizontal extent is what the
source never returns there.  The closed conjuncts exhibit a polygon whose
box is 10 wide and 5 tall for which getWidth answers 5. -/
theorem polygon_getwidth_returns_height :
    (∀ x y V, gPolygonGetWidth x y V = (gPolygonGetBounds x y V).height ∧
      gPolygonGetWidth x y V = gPolygonGetHeight x y V) ∧
    gPolygonGetWidth 0 0 [⟨0, 0⟩, ⟨10, 5⟩] = 5 ∧
    (gPolygonGetBounds 0 0 [⟨0, 0⟩, ⟨10, 5⟩]).width = 10 := by
  refine ⟨fun x y V => ⟨rfl, rfl⟩, ?_, ?_⟩ <;>
    norm_num [gPolygonGetWidth, gPolygonGetBounds, min_def, max_def]

/- ---------------------------------------------------------------------
GLine.contains (gobjects.cpp lines 1030-1064, dsq at lines 1528-1530).
--------------------------------------------------------------------- -/

/-- Square of the distance between two points (static helper dsq). -/
def dsq (x0 y0 x1 y1 : ℚ) : ℚ :=
  (x1 - x0) * (x1 - x0) + (y1 - y0) * (y1 - y0)

/-- GLine state: the start point plus the (dx, dy) offset to the end
point. -/
structure GLineState where
  x : ℚ
  y : ℚ
  dx : ℚ
  dy : ℚ
deriving DecidableEq, Repr

/-- GLine.contains with LINE_TOLERANCE = 1.5 written as 3/2; the
floatingPointEqual degeneracy check becomes exact equality over the
rationals. -/
def gLineContains (L : GLineState) (px py : ℚ) : Bool :=
  let x0 := L.x
  let y0 := L.y
  let x1 := x0 + L.dx
  let y1 := y0 + L.dy
  let tSquared : ℚ := 3 / 2 * (3 / 2)
  if dsq px py x0 y0 < tSquared then true
  else if dsq px py x1 y1 < tSquared then true
  else if px < min x0 x1 - 3 / 2 then false
  else if px > max x0 x1 + 3 / 2 then false
  else if py < min y0 y1 - 3 / 2 then false
  else if py > max y0 y1 + 3 / 2 then false
  else if x0 - x1 = 0 ∧ y0 - y1 = 0 then false
  else
    let u := ((px - x0) * (x1 - x0) + (py - y0) * (y1 - y0)) / dsq x0 y0 x1 y1
    decide (dsq px py (x0 + u * (x1 - x0)) (y0 + u * (y1 - y0)) < tSquared)

/-- Padded bounding box from the claim: the query point lies inside the
segments axis-aligned box enlarged by the tolerance on every side. -/
def linePaddedBox (L : GLineState) (px py : ℚ) : Prop :=
  min L.x (L.x + L.dx) - 3 / 2 ≤ px ∧ px ≤ max L.x (L.x + L.dx) + 3 / 2 ∧
  min L.y (L.y + L.dy) - 3 / 2 ≤ py ∧ py ≤ max L.y (L.y + L.dy) + 3 / 2

/-- Parametric projection parameter of the query point onto the infinite
line through the segment (code line 1061). -/
def lineU (L : GLineState) (px py : ℚ) : ℚ :=
  ((px - L.x) * (L.x + L.dx - L.x) + (py - L.y) * (L.y + L.dy - L.y)) /
    dsq L.x L.y (L.x + L.dx) (L.y + L.dy)

/-- Squared distance from the query point to its parametric projection on
the infinite line (the quantity compared against tolerance squared on
code line 1063). -/
def linePerpSq (L : GLineState) (px py : ℚ) : ℚ :=
  dsq px py (L.x + lineU L px py * (L.x + L.dx - L.x))
    (L.y + lineU L px py * (L.y + L.dy - L.y))

theorem line_dsq_self_eq (L : GLineState) :
    dsq L.x L.y (L.x + L.dx) (L.y + L.dy) = L.dx * L.dx + L.dy * L.dy := by
  unfold dsq; ring

theorem line_dsq_pos (L : GLineState) (hnd : ¬ (L.dx = 0 ∧ L.dy = 0)) :
    0 < L.dx * L.dx + L.dy * L.dy := by
  rcases not_and_or.mp hnd with h | h
  · have h1 : 0 < L.dx * L.dx := mul_self_pos.mpr h
    nlinarith [mul_self_nonneg L.dy]
  · have h1 : 0 < L.dy * L.dy := mul_self_pos.mpr h
    nlinarith [mul_self_nonneg L.dx]

theorem line_perp_eq_start (L : GLineState) (px py : ℚ)
    (hnd : ¬ (L.dx = 0 ∧ L.dy = 0)) :
    linePerpSq L px py =
      dsq px py L.x L.y -
        ((px - L.x) * L.dx + (py - L.y) * L.dy) ^ 2 / (L.dx * L.dx + L.dy * L.dy) := by
  have hd := line_dsq_pos L hnd
  unfold linePerpSq lineU
  rw [line_dsq_self_eq]
  unfold dsq
  field_simp
  ring

theorem line_perp_le_start (L : GLineState) (px py : ℚ)
    (hnd : ¬ (L.dx = 0 ∧ L.dy = 0)) :
    linePerpSq L px py ≤ dsq px py L.x L.y := by
  rw [line_perp_eq_start L px py hnd]
  have hd := line_dsq_pos L hnd
  have hnn : 0 ≤ ((px - L.x) * L.dx + (py - L.y) * L.dy) ^ 2 / (L.dx * L.dx + L.dy * L.dy) :=
    div_nonneg (sq_nonneg _) (le_of_lt hd)
  linarith

theorem line_perp_le_end (L : GLineState) (px py : ℚ)
    (hnd : ¬ (L.dx = 0 ∧ L.dy = 0)) :
    linePerpSq L px py ≤ dsq px py (L.x + L.dx) (L.y + L.dy) := by
  have hd := line_dsq_pos L hnd
  have key : dsq px py (L.x + L.dx) (L.y + L.dy) =
      dsq px py L.x L.y -
        ((px - L.x) * L.dx + (py - L.y) * L.dy) ^ 2 / (L.dx * L.dx + L.dy * L.dy) +
        ((px - L.x) * L.dx + (py - L.y) * L.dy - (L.dx * L.dx + L.dy * L.dy)) ^ 2 /
          (L.dx * L.dx + L.dy * L.dy) := by
    unfold dsq
    field_simp
    ring
  rw [line_perp_eq_start L px py hnd, key]
  have hnn : 0 ≤ ((px - L.x) * L.dx + (py - L.y) * L.dy - (L.dx * L.dx + L.dy * L.dy)) ^ 2 /
      (L.dx * L.dx + L.dy * L.dy) :=
    div_nonneg (sq_nonneg _) (le_of_lt hd)
  linarith

theorem line_box_of_close (x0 y0 px py : ℚ) (mx Mx my My : ℚ)
    (hmx : mx ≤ x0) (hMx : x0 ≤ Mx) (hmy : my ≤ y0) (hMy : y0 ≤ My)
    (h : dsq px py x0 y0 < 3 / 2 * (3 / 2)) :
    mx - 3 / 2 ≤ px ∧ px ≤ Mx + 3 / 2 ∧ my - 3 / 2 ≤ py ∧ py ≤ My + 3 / 2 := by
  unfold dsq at h
  have hx : (x0 - px) ^ 2 < (3 / 2 : ℚ) ^ 2 := by nlinarith [mul_self_nonneg (y0 - py)]
  have hy : (y0 - py) ^ 2 < (3 / 2 : ℚ) ^ 2 := by nlinarith [mul_self_nonneg (x0 - px)]
  have hx' := abs_lt_of_sq_lt_sq' hx (by norm_num)
  have hy' := abs_lt_of_sq_lt_sq' hy (by norm_num)
  exact ⟨by linarith [hx'.1, hx'.2], by linarith [hx'.1, hx'.2],
         by linarith [hy'.1, hy'.2], by linarith [hy'.1, hy'.2]⟩

/-- Claim C2, counterexample: the claim says a zero-length segment
contains no point at all, but the source checks proximity to the two
endpoints before the degeneracy test, so the degenerate line at the
origin does contain the origin. -/
theorem zero_length_line_contains_endpoint :
    gLineContains ⟨0, 0, 0, 0⟩ 0 0 = true := by
  norm_num [gLineContains, dsq]

/-- Claim C2, amended: a zero-length segment contains exactly the points
lying strictly within the tolerance of its single endpoint; for
non-degenerate segments the claims characterisation holds as stated: a
point is contained iff it lies within the padded bounding box and its
squared distance to the parametric projection on the infinite line is
below the tolerance squared. -/
theorem line_contains_characterization (L : GLineState) (px py : ℚ) :
    ((L.dx = 0 ∧ L.dy = 0) →
      (gLineContains L px py = true ↔ dsq px py L.x L.y < 3 / 2 * (3 / 2))) ∧
    (¬ (L.dx = 0 ∧ L.dy = 0) →
      (gLineContains L px py = true ↔
        (linePaddedBox L px py ∧ linePerpSq L px py < 3 / 2 * (3 / 2)))) := by
  constructor
  · rintro ⟨hdx, hdy⟩
    unfold gLineContains
    simp only [hdx, hdy, add_zero]
    by_cases h1 : dsq px py L.x L.y < 3 / 2 * (3 / 2)
    · simp [h1]
    · simp [h1]
  · intro hnd
    have hbig : ∀ a b : ℚ, ¬ (dsq px py a b < 3 / 2 * (3 / 2)) →
        3 / 2 * (3 / 2) ≤ dsq px py a b := fun a b h => le_of_not_lt h
    unfold gLineContains
    by_cases h1 : dsq px py L.x L.y < 3 / 2 * (3 / 2)
    · have hbox := line_box_of_close L.x L.y px py
        (min L.x (L.x + L.dx)) (max L.x (L.x + L.dx))
        (min L.y (L.y + L.dy)) (max L.y (L.y + L.dy))
        (min_le_left _ _) (le_max_left _ _) (min_le_left _ _) (le_max_left _ _) h1
      have hperp : linePerpSq L px py < 3 / 2 * (3 / 2) :=
        lt_of_le_of_lt (line_perp_le_start L px py hnd) h1
      simp only [h1, if_true]
      simp [linePaddedBox, hbox.1, hbox.2.1, hbox.2.2.1, hbox.2.2.2, hperp]
    · by_cases h2 : dsq px py (L.x + L.dx) (L.y + L.dy) < 3 / 2 * (3 / 2)
      · have hbox := line_box_of_close (L.x + L.dx) (L.y + L.dy) px py
          (min L.x (L.x + L.dx)) (max L.x (L.x + L.dx))
          (min L.y (L.y + L.dy)) (max L.y (L.y + L.dy))
          (min_le_right _ _) (le_max_right _ _) (min_le_right _ _) (le_max_right _ _) h2
        have hperp : linePerpSq L px py < 3 / 2 * (3 / 2) :=
          lt_of_le_of_lt (line_perp_le_end L px py hnd) h2
        simp only [h1, if_false, h2, if_true]
        simp [linePaddedBox, hbox.1, hbox.2.1, hbox.2.2.1, hbox.2.2.2, hperp]
      · by_cases h3 : px < min L.x (L.x + L.dx) - 3 / 2
        · simp only [h1, h2, h3, if_false, if_true, Bool.false_eq_true, false_iff]
          rintro ⟨hbox, -⟩
          exact absurd hbox.1 (not_le.mpr h3)
        · by_cases h4 : px > max L.x (L.x + L.dx) + 3 / 2
          · simp only [h1, h2, h3, h4, if_false, if_true, Bool.false_eq_true,
              false_iff]
            rintro ⟨hbox, -⟩
            exact absurd hbox.2.1 (not_le.mpr h4)
          · by_cases h5 : py < min L.y (L.y + L.dy) - 3 / 2
            · simp only [h1, h2, h3, h4, h5, if_false, if_true, Bool.false_eq_true,
                false_iff]
              rintro ⟨hbox, -⟩
              exact absurd hbox.2.2.1 (not_le.mpr h5)
            · by_cases h6 : py > max L.y (L.y + L.dy) + 3 / 2
              · simp only [h1, h2, h3, h4, h5, h6, if_false, if_true,
                  Bool.false_eq_true, false_iff]
                rintro ⟨hbox, -⟩
                exact absurd hbox.2.2.2 (not_le.mpr h6)
              · have h7 : ¬ (L.x - (L.x + L.dx) = 0 ∧ L.y - (L.y + L.dy) = 0) := by
                  intro hc
                  exact hnd ⟨by linarith [hc.1], by linarith [hc.2]⟩
                simp only [h1, h2, h3, h4, h5, h6, h7, if_false]
                have hbox : linePaddedBox L px py :=
                  ⟨le_of_not_lt h3, le_of_not_lt (by exact h4),
                   le_of_not_lt h5, le_of_not_lt (by exact h6)⟩
                simp only [decide_eq_true_eq]
                constructor
                · intro hfin
                  exact ⟨hbox, by
                    have : linePerpSq L px py =
                        dsq px py (L.x + lineU L px py * (L.x + L.dx - L.x))
                          (L.y + lineU L px py * (L.y + L.dy - L.y)) := rfl
                    rw [this]
                    exact hfin⟩
                · rintro ⟨-, hperp⟩
                  exact hperp

/-- Claim C2, witness: the characterisation applied to the degenerate
line at the origin (query point (1,1), inside tolerance) and to the
horizontal segment from (0,0) to (10,0) (query point (5,1), distance 1
from the segment). -/
theorem line_contains_characterization_witness :
    gLineContains ⟨0, 0, 0, 0⟩ 1 1 = true ∧
    gLineContains ⟨0, 0, 10, 0⟩ 5 1 = true := by
  constructor
  · exact ((line_contains_characterization ⟨0, 0, 0, 0⟩ 1 1).1 ⟨rfl, rfl⟩).mpr
      (by norm_num [dsq])
  · refine ((line_contains_characterization ⟨0, 0, 10, 0⟩ 5 1).2 ?_).mpr ⟨?_, ?_⟩
    · norm_num
    · norm_num [linePaddedBox, min_def, max_def]
    · norm_num [linePerpSq, lineU, dsq]

/- ---------------------------------------------------------------------
GOval.contains, GArc.contains, GRoundRect.contains
(gobjects.cpp lines 1144-1157, 525-551, 1389-1414).
--------------------------------------------------------------------- -/

/-- GOval.contains: zero-axis guard (floatingPointEqual, modelled as
exact equality), then the normalised-ellipse test. -/
def gOvalContains (x y w h px py : ℚ) : Bool :=
  let rx := w / 2
  let ry := h / 2
  if rx = 0 ∨ ry = 0 then false
  else
    let dx := px - (x + rx)
    let dy := py - (y + ry)
    decide (dx * dx / (rx * rx) + dy * dy / (ry * ry) ≤ 1)

/-- Marker for GOval.contains: true iff control reaches a division whose
divisor is zero.  The divisors are rx*rx and ry*ry, reached only past the
zero-axis guard. -/
def gOvalDivisorZero (w h : ℚ) : Bool :=
  let rx := w / 2
  let ry := h / 2
  if rx = 0 ∨ ry = 0 then false
  else decide (rx * rx = 0) || decide (ry * ry = 0)

/-- GArc.contains up to the final angle test: the source ends with
containsAngle(atan2(-dy/ry, dx/rx) * 180 / PI), which is transcendental,
so that last step is a parameter angleOk of the embedding; every property
proved here holds for every possible angle test.  ARC_TOLERANCE = 2.5 is
written 5/2. -/
def gArcContains (angleOk : ℚ → ℚ → Bool) (x y w h : ℚ) (filled : Bool)
    (px py : ℚ) : Bool :=
  let rx := w / 2
  let ry := h / 2
  if rx = 0 ∨ ry = 0 then false
  else
    let dx := px - (x + rx)
    let dy := py - (y + ry)
    let r := dx * dx / (rx * rx) + dy * dy / (ry * ry)
    if filled then
      if r > 1 then false else angleOk dx dy
    else
      let t := 5 / 2 / ((rx + ry) / 2)
      if |1 - r| > t then false else angleOk dx dy

/-- Marker for GArc.contains: the divisors reached past the guard are
rx*rx, ry*ry, the mean radius (rx + ry)/2 in the unfilled tolerance, and
rx and ry themselves inside the atan2 arguments; true iff one of them is
zero. -/
def gArcDivisorZero (w h : ℚ) (filled : Bool) : Bool :=
  let rx := w / 2
  let ry := h / 2
  if rx = 0 ∨ ry = 0 then false
  else
    decide (rx * rx = 0) || decide (ry * ry = 0) ||
      (!filled && decide ((rx + ry) / 2 = 0))

/-- GRoundRect.contains.  The final line of the source evaluates
(dx-a)(dx-a)/(a*a) + (dy-b)(dy-b)/(b*b) <= 1 in IEEE doubles; whenever
that line is reached with a = 0 or b = 0 the matching numerator is 0 too
(the ears guard gives 0 <= dx <= a and 0 <= dy <= b), the quotient 0/0 is
NaN and the comparison with 1 is false, so the explicit zero branch below
returns false exactly as the double arithmetic does. -/
def gRoundRectContains (x y w h corner px py : ℚ) : Bool :=
  if !(rectContains ⟨x, y, w, h⟩ px py) then false
  else
    let a := min corner w / 2
    let b := min corner h / 2
    let dx := min |px - x| |px - (x + w)|
    let dy := min |py - y| |py - (y + h)|
    if dx > a ∨ dy > b then true
    else if a = 0 ∨ b = 0 then false
    else decide ((dx - a) * (dx - a) / (a * a) + (dy - b) * (dy - b) / (b * b) ≤ 1)

/-- Marker for GRoundRect.contains: true iff the corner ellipse line is
reached with a zero divisor (a*a = 0 or b*b = 0). -/
def gRoundRectDivisorZero (x y w h corner px py : ℚ) : Bool :=
  if !(rectContains ⟨x, y, w, h⟩ px py) then false
  else
    let a := min corner w / 2
    let b := min corner h / 2
    let dx := min |px - x| |px - (x + w)|
    let dy := min |py - y| |py - (y + h)|
    if dx > a ∨ dy > b then false
    else decide (a * a = 0) || decide (b * b = 0)

/-- Claim C9, counterexample: the claim says no division by zero is ever
evaluated in any containment test, but GRoundRect.contains with corner
radius 0 reaches its corner-ellipse division at the top-left corner point
of the box (0,0,10,10) with both divisors zero (the source computes
0.0/0.0 there; the resulting NaN comparison rejects the point). -/
theorem roundrect_corner_divides_by_zero :
    gRoundRectDivisorZero 0 0 10 10 0 0 0 = true ∧
    gRoundRectContains 0 0 10 10 0 0 0 = false := by
  constructor <;>
    norm_num [gRoundRectDivisorZero, gRoundRectContains, rectContains,
      min_def, abs_of_nonneg, abs_of_nonpos]

/-- Claim C9, amended: with nonnegative width and height, the oval and
arc tests with a zero semi-axis contain no point and never evaluate a
division with a zero divisor; the rounded-rect corner test with a zero
corner semi-axis likewise accepts no point of the corner-ears region,
but it does so by reaching the ellipse division with a zero divisor
(0/0, a NaN which fails the comparison) instead of guarding it. -/
theorem zero_axis_ellipse_tests (angleOk : ℚ → ℚ → Bool)
    (x y w h corner px py : ℚ) (filled : Bool) (hw : 0 ≤ w) (hh : 0 ≤ h) :
    ((w / 2 = 0 ∨ h / 2 = 0) →
      gOvalContains x y w h px py = false ∧
      gArcContains angleOk x y w h filled px py = false) ∧
    gOvalDivisorZero w h = false ∧
    gArcDivisorZero w h filled = false ∧
    ((min corner w / 2 = 0 ∨ min corner h / 2 = 0) →
      rectContains ⟨x, y, w, h⟩ px py = true →
      ¬ (min |px - x| |px - (x + w)| > min corner w / 2 ∨
         min |py - y| |py - (y + h)| > min corner h / 2) →
      gRoundRectContains x y w h corner px py = false ∧
      gRoundRectDivisorZero x y w h corner px py = true) := by
  refine ⟨?_, ?_, ?_, ?_⟩
  · intro hz
    constructor
    · simp only [gOvalContains]
      rw [if_pos hz]
    · simp only [gArcContains]
      rw [if_pos hz]
  · by_cases hz : w / 2 = 0 ∨ h / 2 = 0
    · simp only [gOvalDivisorZero]
      rw [if_pos hz]
    · push_neg at hz
      simp [gOvalDivisorZero, hz.1, hz.2, mul_self_eq_zero]
  · by_cases hz : w / 2 = 0 ∨ h / 2 = 0
    · simp only [gArcDivisorZero]
      rw [if_pos hz]
    · push_neg at hz
      have hrx : 0 < w / 2 := lt_of_le_of_ne (by linarith) (Ne.symm hz.1)
      have hry : 0 < h / 2 := lt_of_le_of_ne (by linarith) (Ne.symm hz.2)
      have hmean : (w / 2 + h / 2) / 2 ≠ 0 := by positivity
      simp [gArcDivisorZero, hz.1, hz.2, mul_self_eq_zero, hmean]
  · intro ha hin hears
    constructor
    · simp only [gRoundRectContains, hin, Bool.not_true, Bool.false_eq_true,
        if_false, hears, if_true, ha, if_pos]
    · simp only [gRoundRectDivisorZero, hin, Bool.not_true, Bool.false_eq_true,
        if_false, hears]
      rcases ha with ha | ha
      · simp [ha]
      · simp [ha]

/-- Claim C9, witness: the amended theorem applied to a zero-width oval
and arc, and to the rounded rect of box (0,0,10,10) with corner 0 at its
top-left corner point. -/
theorem zero_axis_ellipse_tests_witness :
    gOvalContains 0 0 0 10 0 0 = false ∧
    gArcContains (fun _ _ => true) 0 0 0 10 false 0 0 = false ∧
    gRoundRectContains 0 0 10 10 0 0 0 = false ∧
    gRoundRectDivisorZero 0 0 10 10 0 0 0 = true := by
  have h1 := (zero_axis_ellipse_tests (fun _ _ => true) 0 0 0 10 0 0 0 false
    le_rfl (by norm_num)).1 (Or.inl (by norm_num))
  have h2 := (zero_axis_ellipse_tests (fun _ _ => true) 0 0 10 10 0 0 0 false
    (by norm_num) (by norm_num)).2.2.2
    (Or.inl (by norm_num [min_def]))
    (by norm_num [rectContains])
    (by norm_num [min_def, abs_of_nonneg, abs_of_nonpos])
  exact ⟨h1.1, h1.2, h2.1, h2.2⟩

/- ---------------------------------------------------------------------
GCompound z-order operations (gobjects.cpp lines 741-749 and 871-924).
Shapes are identified by ids (the source compares pointers). -/

/-- GCompound.findGObject: index of the first occurrence of the shape in
the child list; none models the -1 of the source. -/
def findGObject : List Nat → Nat → Option Nat
  | [], _ => none
  | a :: t, s => if a = s then some 0 else (findGObject t s).map (· + 1)

/-- Vector.insert as used by sendForward/sendBackward; all call sites
keep the index within range (an out-of-range index would abort in the
source, and is never reached here). -/
def insertAt : Nat → Nat → List Nat → List Nat
  | 0, s, l => s :: l
  | _ + 1, s, [] => [s]
  | n + 1, s, a :: t => a :: insertAt n s t

/-- GCompound.sendToFront on the child list: locate by identity (no-op
when absent), and unless already last, remove and append at the end. -/
def sendToFrontList (l : List Nat) (s : Nat) : List Nat :=
  match findGObject l s with
  | none => l
  | some i => if i = l.length - 1 then l else l.eraseIdx i ++ [s]

/-- GCompound.sendToBack on the child list: locate by identity (no-op
when absent), and unless already first, remove and reinsert at index 0. -/
def sendToBackList (l : List Nat) (s : Nat) : List Nat :=
  match findGObject l s with
  | none => l
  | some i => if i = 0 then l else s :: l.eraseIdx i

/-- GCompound.sendForward on the child list: unless already last, remove
and reinsert one position later. -/
def sendForwardList (l : List Nat) (s : Nat) : List Nat :=
  match findGObject l s with
  | none => l
  | some i => if i = l.length - 1 then l else insertAt (i + 1) s (l.eraseIdx i)

/-- GCompound.sendBackward on the child list: unless already first,
remove and reinsert one position earlier. -/
def sendBackwardList (l : List Nat) (s : Nat) : List Nat :=
  match findGObject l s with
  | none => l
  | some i => if i = 0 then l else insertAt (i - 1) s (l.eraseIdx i)

theorem findGObject_eq_none (l : List Nat) (s : Nat) :
    findGObject l s = none ↔ s ∉ l := by
  induction l with
  | nil => simp [findGObject]
  | cons a t ih =>
    by_cases ha : a = s
    · simp [findGObject, ha]
    · simp [findGObject, ha, ih, Ne.symm ha]

theorem findGObject_decomp (l : List Nat) (s : Nat) (i : Nat)
    (h : findGObject l s = some i) :
    ∃ l₁ l₂, l = l₁ ++ s :: l₂ ∧ l₁.length = i ∧ s ∉ l₁ := by
  induction l generalizing i with
  | nil => simp [findGObject] at h
  | cons a t ih =>
    by_cases ha : a = s
    · subst ha
      simp [findGObject] at h
      exact ⟨[], t, by simp, by simp [← h], by simp⟩
    · simp only [findGObject, ha, if_false, Option.map_eq_some'] at h
      obtain ⟨j, hj, hji⟩ := h
      obtain ⟨l₁, l₂, hl, hlen, hmem⟩ := ih j hj
      exact ⟨a :: l₁, l₂, by simp [hl], by simp [hlen, hji], by
        simp only [List.mem_cons, not_or]
        exact ⟨Ne.symm ha, hmem⟩⟩

theorem findGObject_first (l₁ l₂ : List Nat) (s : Nat) (h : s ∉ l₁) :
    findGObject (l₁ ++ s :: l₂) s = some l₁.length := by
  induction l₁ with
  | nil => simp [findGObject]
  | cons a t ih =>
    simp only [List.mem_cons, not_or] at h
    simp [findGObject, Ne.symm h.1, ih h.2]

theorem eraseIdx_decomp (l₁ l₂ : List Nat) (s : Nat) :
    (l₁ ++ s :: l₂).eraseIdx l₁.length = l₁ ++ l₂ := by
  induction l₁ with
  | nil => simp
  | cons a t ih => simp [List.eraseIdx_cons_succ, ih]

theorem insertAt_perm (n s : Nat) (l : List Nat) (h : n ≤ l.length) :
    List.Perm (insertAt n s l) (s :: l) := by
  induction l generalizing n with
  | nil =>
    have h0 : n = 0 := by simpa using h
    subst h0
    exact List.Perm.refl _
  | cons a t ih =>
    cases n with
    | zero => exact List.Perm.refl _
    | succ m =>
      have hm : m ≤ t.length := by simpa using h
      exact ((ih m hm).cons a).trans (List.Perm.swap s a t)

theorem erase_decomp (l₁ l₂ : List Nat) (s : Nat) (h : s ∉ l₁) :
    (l₁ ++ s :: l₂).erase s = l₁ ++ l₂ := by
  rw [List.erase_append_right _ (by simpa using h), List.erase_cons_head]

/-- Claim C7, counterexample: a shape may be added twice, and then the
idempotence clause fails.  In the child list [0, 1, 0] shape 0 is the
last element, yet sendToFront moves the FIRST occurrence (the source
locates by first index), changing the list to [1, 0, 0]. -/
theorem sendtofront_duplicate_not_idempotent :
    ([0, 1, 0] : List Nat).getLast? = some 0 ∧
    sendToFrontList [0, 1, 0] 0 ≠ [0, 1, 0] := by decide

/-- Claim C7, amended: for a duplicate-free child list, sendToFront moves
the member s to the end keeping the other children in their order
(result erase s ++ [s]), is the identity when s is already last, and is
a no-op when s is absent; symmetrically sendToBack yields s :: erase s,
is the identity when s is already first, and is a no-op when s is
absent. -/
theorem zorder_front_back (l : List Nat) (s : Nat) (hnd : l.Nodup) :
    (s ∈ l → sendToFrontList l s = l.erase s ++ [s] ∧
             sendToBackList l s = s :: l.erase s) ∧
    (l.getLast? = some s → sendToFrontList l s = l) ∧
    (l.head? = some s → sendToBackList l s = l) ∧
    (s ∉ l → sendToFrontList l s = l ∧ sendToBackList l s = l) := by
  have habsent : s ∉ l → sendToFrontList l s = l ∧ sendToBackList l s = l := by
    intro hmem
    have hf : findGObject l s = none := (findGObject_eq_none l s).mpr hmem
    constructor <;> simp [sendToFrontList, sendToBackList, hf]
  have hmain : s ∈ l → sendToFrontList l s = l.erase s ++ [s] ∧
      sendToBackList l s = s :: l.erase s := by
    intro hmem
    obtain ⟨i, hi⟩ : ∃ i, findGObject l s = some i := by
      cases hfind : findGObject l s with
      | none => exact absurd ((findGObject_eq_none l s).mp hfind) (not_not.mpr hmem)
      | some i => exact ⟨i, rfl⟩
    obtain ⟨l₁, l₂, hl, hlen, hnotl₁⟩ := findGObject_decomp l s i hi
    have herase : l.erase s = l₁ ++ l₂ := by
      rw [hl]; exact erase_decomp l₁ l₂ s hnotl₁
    have heidx : l.eraseIdx i = l₁ ++ l₂ := by
      rw [hl, ← hlen]; exact eraseIdx_decomp l₁ l₂ s
    have hlength : l.length = l₁.length + l₂.length + 1 := by
      rw [hl]; simp; omega
    constructor
    · by_cases hlast : i = l.length - 1
      · have hl₂ : l₂ = [] := by
          apply List.length_eq_zero.mp
          omega
        rw [hl₂] at hl herase
        simp only [sendToFrontList, hi, if_pos hlast]
        rw [herase, hl]
        simp
      · simp only [sendToFrontList, hi, if_neg hlast]
        rw [heidx, herase]
    · by_cases hfirst : i = 0
      · have hl₁ : l₁ = [] := by
          apply List.length_eq_zero.mp
          omega
        rw [hl₁] at hl herase
        simp only [sendToBackList, hi, if_pos hfirst]
        rw [herase, hl]
        simp
      · simp only [sendToBackList, hi, if_neg hfirst]
        rw [heidx, herase]
  refine ⟨hmain, ?_, ?_, habsent⟩
  · intro hlast
    have hne : l ≠ [] := by rintro rfl; simp at hlast
    have hmem : s ∈ l := by
      have := List.getLast?_eq_getLast l hne
      rw [hlast] at this
      have hs : l.getLast hne = s := by
        injection this.symm with h
      rw [← hs]
      exact List.getLast_mem hne
    obtain ⟨l', hl'⟩ : ∃ l', l = l' ++ [s] := by
      refine ⟨l.dropLast, ?_⟩
      have hs : l.getLast hne = s := by
        have := List.getLast?_eq_getLast l hne
        rw [hlast] at this
        injection this.symm with h
      conv_lhs => rw [← List.dropLast_concat_getLast hne]
      rw [hs]
    have h1 := (hmain hmem).1
    rw [h1, hl']
    have hnot : s ∉ l' := by
      subst hl'
      rcases List.nodup_append.mp hnd with ⟨-, -, hdis⟩
      intro hc
      exact hdis hc (by simp)
    rw [erase_decomp l' [] s hnot]
    simp
  · intro hhead
    cases l with
    | nil => simp at hhead
    | cons a t =>
      have ha : a = s := by simpa using hhead
      subst ha
      have h1 := (hmain (by simp)).2
      rw [h1, List.erase_cons_head]

/-- Claim C7, witness: the amended theorem applied to the duplicate-free
list [1, 2, 3] with member 2. -/
theorem zorder_front_back_witness :
    sendToFrontList [1, 2, 3] 2 = [1, 3, 2] ∧
    sendToBackList [1, 2, 3] 2 = [2, 1, 3] := by
  have h := (zorder_front_back [1, 2, 3] 2 (by decide)).1 (by decide)
  exact ⟨h.1.trans (by decide), h.2.trans (by decide)⟩

/- ---------------------------------------------------------------------
Container membership world (GCompound add/remove/removeAll and the
z-order moves; gobjects.cpp lines 674-679, 804-834, 871-924).
--------------------------------------------------------------------- -/

/-- The scene-graph state the membership claims are about: childLists c
is the ordered child list of container c, and parent s is the
back-reference of shape s (GObject::_parent).  Shapes and containers are
identified by ids; the source compares pointers. -/
structure World where
  childLists : Nat → List Nat
  parent : Nat → Option Nat

/-- The world with every container empty and every shape parentless. -/
def emptyWorld : World :=
  { childLists := fun _ => [], parent := fun _ => none }

/-- GCompound.add: append the shape at the end of the list and overwrite
its back-reference (gobjects.cpp lines 674-679); the source performs no
check that the shape is not already owned. -/
def addOp (w : World) (c s : Nat) : World :=
  { childLists := fun d => if d = c then w.childLists c ++ [s] else w.childLists d,
    parent := fun t => if t = s then some c else w.parent t }

/-- GCompound.removeAt: read the shape at the index (the Vector access
aborts out of range, modelled as none), remove that index and null the
back-reference (gobjects.cpp lines 829-834). -/
def removeAtOp (w : World) (c i : Nat) : Option World :=
  match (w.childLists c)[i]? with
  | none => none
  | some s =>
      some { childLists := fun d => if d = c then (w.childLists c).eraseIdx i
                                    else w.childLists d,
             parent := fun t => if t = s then none else w.parent t }

/-- GCompound.remove: locate by identity, no-op when absent, else behave
as removeAt at the found index (gobjects.cpp lines 804-810). -/
def removeOp (w : World) (c s : Nat) : World :=
  match findGObject (w.childLists c) s with
  | none => w
  | some i =>
      { childLists := fun d => if d = c then (w.childLists c).eraseIdx i
                               else w.childLists d,
        parent := fun t => if t = s then none else w.parent t }

/-- GCompound.removeAll: clear the list and null the back-reference of
every former member (gobjects.cpp lines 816-827). -/
def removeAllOp (w : World) (c : Nat) : World :=
  { childLists := fun d => if d = c then [] else w.childLists d,
    parent := fun t => if t ∈ w.childLists c then none else w.parent t }

/-- Replace the child list of one container, leaving back-references
alone (what the four z-order moves do to the world). -/
def setList (w : World) (c : Nat) (l : List Nat) : World :=
  { w with childLists := fun d => if d = c then l else w.childLists d }

/-- One container operation of the claim. -/
inductive GOp where
  | add (c s : Nat)
  | remove (c s : Nat)
  | removeAt (c i : Nat)
  | removeAll (c : Nat)
  | toFront (c s : Nat)
  | toBack (c s : Nat)
  | forward (c s : Nat)
  | backward (c s : Nat)

/-- One step of the scene graph; none models an aborting call. -/
def stepOp (w : World) : GOp → Option World
  | .add c s => some (addOp w c s)
  | .remove c s => some (removeOp w c s)
  | .removeAt c i => removeAtOp w c i
  | .removeAll c => some (removeAllOp w c)
  | .toFront c s => some (setList w c (sendToFrontList (w.childLists c) s))
  | .toBack c s => some (setList w c (sendToBackList (w.childLists c) s))
  | .forward c s => some (setList w c (sendForwardList (w.childLists c) s))
  | .backward c s => some (setList w c (sendBackwardList (w.childLists c) s))

/-- Run a sequence of operations, aborting when a step aborts. -/
def runOps (w : World) : List GOp → Option World
  | [] => some w
  | op :: ops =>
    match stepOp w op with
    | none => none
    | some w1 => runOps w1 ops

/-- The agreement part of the claims invariant: a shapes back-reference
names a container exactly when that containers list holds the shape.
Since parent is a function, this also makes every shape a child of at
most one container. -/
def Agrees (w : World) : Prop :=
  ∀ s c, s ∈ w.childLists c ↔ w.parent s = some c

/-- Well-formedness: agreement plus duplicate-free child lists. -/
def InvW (w : World) : Prop :=
  Agrees w ∧ ∀ c, (w.childLists c).Nodup

/-- The remove-then-add discipline stated by the spec: add is invoked
only on a shape that currently has no parent.  All other operations are
unrestricted. -/
def SafeOp (w : World) : GOp → Prop
  | .add _ s => w.parent s = none
  | _ => True

/-- A trace obeys the discipline if every step is safe in the state in
which it executes. -/
def Disciplined : World → List GOp → Prop
  | _, [] => True
  | w, op :: ops => SafeOp w op ∧ ∀ w1, stepOp w op = some w1 → Disciplined w1 ops

theorem getElem?_decomp (l : List Nat) (i : Nat) (s : Nat)
    (h : l[i]? = some s) :
    ∃ l₁ l₂, l = l₁ ++ s :: l₂ ∧ l₁.length = i := by
  induction l generalizing i with
  | nil => simp at h
  | cons a t ih =>
    cases i with
    | zero =>
      simp only [List.getElem?_cons_zero, Option.some.injEq] at h
      exact ⟨[], t, by simp [h], rfl⟩
    | succ n =>
      simp only [List.getElem?_cons_succ] at h
      obtain ⟨l₁, l₂, hl, hlen⟩ := ih n h
      exact ⟨a :: l₁, l₂, by simp [hl], by simp [hlen]⟩

theorem getElem?_of_decomp (l₁ l₂ : List Nat) (s : Nat) :
    (l₁ ++ s :: l₂)[l₁.length]? = some s := by
  induction l₁ with
  | nil => simp
  | cons a t ih => simpa using ih

theorem invW_addOp (w : World) (c s : Nat) (hI : InvW w)
    (hs : w.parent s = none) : InvW (addOp w c s) := by
  constructor
  · intro t d
    simp only [addOp]
    split_ifs with hd ht ht
    · rw [hd, ht]
      simp
    · rw [hd]
      simp only [List.mem_append, List.mem_singleton, ht, or_false]
      exact hI.1 t c
    · rw [ht]
      constructor
      · intro hc
        have h2 := (hI.1 s d).mp hc
        rw [hs] at h2
        exact Option.noConfusion h2
      · intro hc
        exact absurd (Option.some.inj hc) fun h3 => hd h3.symm
    · exact hI.1 t d
  · intro d
    simp only [addOp]
    split_ifs with hd
    · have hns : s ∉ w.childLists c := by
        intro hc
        rw [(hI.1 s c).mp hc] at hs
        exact Option.noConfusion hs
      refine List.Nodup.append (hI.2 c) (List.nodup_singleton s) ?_
      intro t htl hts
      rw [List.mem_singleton] at hts
      subst hts
      exact hns htl
    · exact hI.2 d

theorem invW_eraseAt (w : World) (c i s : Nat) (hI : InvW w)
    (hget : (w.childLists c)[i]? = some s) :
    InvW { childLists := fun d => if d = c then (w.childLists c).eraseIdx i
                                  else w.childLists d,
           parent := fun t => if t = s then none else w.parent t } := by
  obtain ⟨l₁, l₂, hl, hlen⟩ := getElem?_decomp _ i s hget
  have hnd := hI.2 c
  rw [hl] at hnd
  rcases List.nodup_append.mp hnd with ⟨-, hnd₂, hdis⟩
  have hnotl₁ : s ∉ l₁ := fun hc => hdis hc (List.mem_cons_self s l₂)
  have hnotl₂ : s ∉ l₂ := (List.nodup_cons.mp hnd₂).1
  have hmem : s ∈ w.childLists c := by rw [hl]; simp
  have hps : w.parent s = some c := (hI.1 s c).mp hmem
  have heidx : (w.childLists c).eraseIdx i = l₁ ++ l₂ := by
    rw [hl, ← hlen]; exact eraseIdx_decomp l₁ l₂ s
  constructor
  · intro t d
    dsimp only
    split_ifs with hd ht ht
    · rw [ht, heidx]
      simp [hnotl₁, hnotl₂]
    · rw [heidx, hd]
      have h2 := hI.1 t c
      rw [hl] at h2
      simp only [List.mem_append, List.mem_cons, ht, false_or] at h2
      simp only [List.mem_append]
      exact h2
    · rw [ht]
      constructor
      · intro hc
        have h2 := (hI.1 s d).mp hc
        rw [hps] at h2
        exact absurd (Option.some.inj h2) fun h3 => hd h3.symm
      · intro hc
        exact hc.elim
    · exact hI.1 t d
  · intro d
    dsimp only
    split_ifs with hd
    · exact (hI.2 c).sublist (List.eraseIdx_sublist _ i)
    · exact hI.2 d

theorem invW_removeAll (w : World) (c : Nat) (hI : InvW w) :
    InvW (removeAllOp w c) := by
  constructor
  · intro t d
    simp only [removeAllOp]
    split_ifs with hd ht ht
    · simp
    · rw [hd]
      simp only [List.not_mem_nil, false_iff]
      intro hc
      exact ht ((hI.1 t c).mpr hc)
    · have hpt : w.parent t = some c := (hI.1 t c).mp ht
      constructor
      · intro hc
        have h2 := (hI.1 t d).mp hc
        rw [hpt] at h2
        exact absurd (Option.some.inj h2) fun h3 => hd h3.symm
      · intro hc
        exact hc.elim
    · exact hI.1 t d
  · intro d
    simp only [removeAllOp]
    split_ifs with hd
    · simp
    · exact hI.2 d

theorem invW_setPerm (w : World) (c : Nat) (l : List Nat) (hI : InvW w)
    (hp : List.Perm l (w.childLists c)) : InvW (setList w c l) := by
  constructor
  · intro t d
    simp only [setList]
    split_ifs with hd
    · rw [hp.mem_iff, hd]
      exact hI.1 t c
    · exact hI.1 t d
  · intro d
    simp only [setList]
    split_ifs with hd
    · exact hp.nodup_iff.mpr (hI.2 c)
    · exact hI.2 d


theorem sendToFrontList_perm (l : List Nat) (s : Nat) :
    List.Perm (sendToFrontList l s) l := by
  unfold sendToFrontList
  cases hf : findGObject l s with
  | none => exact List.Perm.refl l
  | some i =>
    by_cases hlast : i = l.length - 1
    · simp [hlast]
    · simp only [if_neg hlast]

      obtain ⟨l₁, l₂, hl, hlen, -⟩ := findGObject_decomp l s i hf
      rw [hl, ← hlen, eraseIdx_decomp l₁ l₂ s]
      exact (List.perm_append_singleton s (l₁ ++ l₂)).trans List.perm_middle.symm

theorem sendToBackList_perm (l : List Nat) (s : Nat) :
    List.Perm (sendToBackList l s) l := by
  unfold sendToBackList
  cases hf : findGObject l s with
  | none => exact List.Perm.refl l
  | some i =>
    by_cases hfirst : i = 0
    · simp [hfirst]
    · simp only [if_neg hfirst]
      obtain ⟨l₁, l₂, hl, hlen, -⟩ := findGObject_decomp l s i hf
      rw [hl, ← hlen, eraseIdx_decomp l₁ l₂ s]
      exact List.perm_middle.symm

theorem sendForwardList_perm (l : List Nat) (s : Nat) :
    List.Perm (sendForwardList l s) l := by
  unfold sendForwardList
  cases hf : findGObject l s with
  | none => exact List.Perm.refl l
  | some i =>
    by_cases hlast : i = l.length - 1
    · simp [hlast]
    · simp only [if_neg hlast]
      obtain ⟨l₁, l₂, hl, hlen, -⟩ := findGObject_decomp l s i hf
      have hlen2 : l.length = l₁.length + l₂.length + 1 := by
        rw [hl]; simp; omega
      have hbound : i + 1 ≤ (l₁ ++ l₂).length := by
        simp only [List.length_append]
        omega
      rw [hl, ← hlen, eraseIdx_decomp l₁ l₂ s, hlen]
      exact (insertAt_perm (i + 1) s (l₁ ++ l₂) hbound).trans List.perm_middle.symm

theorem sendBackwardList_perm (l : List Nat) (s : Nat) :
    List.Perm (sendBackwardList l s) l := by
  unfold sendBackwardList
  cases hf : findGObject l s with
  | none => exact List.Perm.refl l
  | some i =>
    by_cases hfirst : i = 0
    · simp [hfirst]
    · simp only [if_neg hfirst]
      obtain ⟨l₁, l₂, hl, hlen, -⟩ := findGObject_decomp l s i hf
      have hbound : i - 1 ≤ (l₁ ++ l₂).length := by
        simp only [List.length_append]
        omega
      rw [hl, ← hlen, eraseIdx_decomp l₁ l₂ s, hlen]
      exact (insertAt_perm (i - 1) s (l₁ ++ l₂) hbound).trans List.perm_middle.symm

theorem invW_step (w : World) (op : GOp) (w1 : World) (hI : InvW w)
    (hS : SafeOp w op) (h : stepOp w op = some w1) : InvW w1 := by
  cases op with
  | add c s =>
    simp only [stepOp, Option.some.injEq] at h
    subst h
    exact invW_addOp w c s hI hS
  | remove c s =>
    simp only [stepOp, Option.some.injEq] at h
    subst h
    unfold removeOp
    cases hf : findGObject (w.childLists c) s with
    | none => exact hI
    | some i =>
      obtain ⟨l₁, l₂, hl, hlen, -⟩ := findGObject_decomp _ s i hf
      have hget : (w.childLists c)[i]? = some s := by
        rw [hl, ← hlen]
        exact getElem?_of_decomp l₁ l₂ s
      exact invW_eraseAt w c i s hI hget
  | removeAt c i =>
    simp only [stepOp] at h
    unfold removeAtOp at h
    cases hget : (w.childLists c)[i]? with
    | none => rw [hget] at h; exact Option.noConfusion h
    | some s =>
      rw [hget] at h
      simp only [Option.some.injEq] at h
      subst h
      exact invW_eraseAt w c i s hI hget
  | removeAll c =>
    simp only [stepOp, Option.some.injEq] at h
    subst h
    exact invW_removeAll w c hI
  | toFront c s =>
    simp only [stepOp, Option.some.injEq] at h
    subst h
    exact invW_setPerm w c _ hI (sendToFrontList_perm _ s)
  | toBack c s =>
    simp only [stepOp, Option.some.injEq] at h
    subst h
    exact invW_setPerm w c _ hI (sendToBackList_perm _ s)
  | forward c s =>
    simp only [stepOp, Option.some.injEq] at h
    subst h
    exact invW_setPerm w c _ hI (sendForwardList_perm _ s)
  | backward c s =>
    simp only [stepOp, Option.some.injEq] at h
    subst h
    exact invW_setPerm w c _ hI (sendBackwardList_perm _ s)

/-- Claim C5, counterexample: add performs no ownership check, so adding
the same shape to two containers leaves it in both child lists while its
back-reference names only the second, violating both the exclusive-
ownership part and the agreement part of the claim. -/
theorem double_add_breaks_membership :
    5 ∈ ((runOps emptyWorld [GOp.add 0 5, GOp.add 1 5]).getD emptyWorld).childLists 0 ∧
    5 ∈ ((runOps emptyWorld [GOp.add 0 5, GOp.add 1 5]).getD emptyWorld).childLists 1 ∧
    ((runOps emptyWorld [GOp.add 0 5, GOp.add 1 5]).getD emptyWorld).parent 5 = some 1 ∧
    ((runOps emptyWorld [GOp.add 0 5, GOp.add 1 5]).getD emptyWorld).parent 5 ≠ some 0 := by
  refine ⟨?_, ?_, ?_, ?_⟩ <;>
    simp [runOps, stepOp, addOp, emptyWorld]

/-- Claim C5, amended: starting from a well-formed world (agreement plus
duplicate-free child lists) and running any sequence of container
operations in which add is only ever applied to a currently parentless
shape (the remove-then-add discipline named by the spec), the invariant
is preserved: each shape is a child of at most one container and the
back-references agree with the membership lists.  Without that
discipline the counterexample applies. -/
theorem container_membership_invariant (ops : List GOp) (w w1 : World)
    (hI : InvW w) (hd : Disciplined w ops) (hrun : runOps w ops = some w1) :
    InvW w1 := by
  induction ops generalizing w with
  | nil =>
    simp only [runOps, Option.some.injEq] at hrun
    subst hrun
    exact hI
  | cons op ops ih =>
    simp only [Disciplined] at hd
    simp only [runOps] at hrun
    cases hstep : stepOp w op with
    | none => rw [hstep] at hrun; exact Option.noConfusion hrun
    | some w2 =>
      rw [hstep] at hrun
      exact ih w2 (invW_step w op w2 hI hd.1 hstep) (hd.2 w2 hstep) hrun

/-- Claim C5, witness: the preserved invariant after one disciplined add
into the empty world. -/
theorem container_membership_invariant_witness :
    InvW (addOp emptyWorld 0 5) := by
  apply container_membership_invariant [GOp.add 0 5] emptyWorld (addOp emptyWorld 0 5)
  · constructor
    · intro s c
      simp [emptyWorld]
    · intro c
      simp [emptyWorld]
  · refine ⟨rfl, ?_⟩
    intro w1 h
    simp [Disciplined]
  · rfl

/- ---------------------------------------------------------------------
GPolygon.contains (gobjects.cpp lines 1254-1279).
--------------------------------------------------------------------- -/

/-- The crossing test of one directed edge (x0,y0) to (x1,y1) against the
query point, the loop body condition at line 1272.  Over the rationals
the division is exact; it is only consulted when y0 and y1 straddle py,
so the divisor is nonzero there. -/
def crossCond (px py x0 y0 x1 y1 : ℚ) : Bool :=
  (decide (y0 > py) != decide (y1 > py)) &&
    decide (px - x0 < (x1 - x0) * (py - y0) / (y1 - y0))

/-- The cyclic edge list walked by the loop: vertex i paired with vertex
(i+1) mod n, i.e. the list zipped with its rotation by one. -/
def edgesOf (W : List GPt) : List (GPt × GPt) :=
  W.zip (W.rotate 1)

/-- Crossing count of the loop. -/
def crossings (px py : ℚ) (W : List GPt) : Nat :=
  ((edgesOf W).map fun e => if crossCond px py e.1.x e.1.y e.2.x e.2.y then 1 else 0).sum

/-- GPolygon.contains: fewer than two vertices contain nothing; when the
first vertex equals the last, the ring length is reduced by one
(auto-closing); the even-odd crossing count then decides. -/
def gPolygonContains (V : List GPt) (px py : ℚ) : Bool :=
  if V.length < 2 then false
  else if V.head? = V.getLast? then decide (crossings px py V.dropLast % 2 = 1)
  else decide (crossings px py V % 2 = 1)

theorem rotate_one_cons (a : GPt) (t : List GPt) :
    (a :: t).rotate 1 = t ++ [a] := by
  rw [List.rotate_cons_succ, List.rotate_zero]

theorem crossings_concat (px py : ℚ) (v : GPt) (l : List GPt) :
    crossings px py ((v :: l) ++ [v]) = crossings px py (v :: l) := by
  unfold crossings
  have h1 : edgesOf ((v :: l) ++ [v]) = edgesOf (v :: l) ++ [(v, v)] := by
    unfold edgesOf
    rw [show (v :: l) ++ [v] = v :: (l ++ [v]) from rfl]
    rw [rotate_one_cons, rotate_one_cons]
    rw [show v :: (l ++ [v]) = (v :: l) ++ [v] from rfl]
    rw [List.zip_append (by simp)]
    simp
  rw [h1]
  simp [crossCond]

theorem crossings_rotate_one (px py : ℚ) (W : List GPt) :
    crossings px py (W.rotate 1) = crossings px py W := by
  cases W with
  | nil => rfl
  | cons a t =>
    cases t with
    | nil =>
      rw [rotate_one_cons]
      rfl
    | cons b t2 =>
      rw [rotate_one_cons]
      unfold crossings
      have h1 : edgesOf ((b :: t2) ++ [a]) =
          (b :: t2).zip (t2 ++ [a]) ++ [(a, b)] := by
        unfold edgesOf
        rw [show (b :: t2) ++ [a] = b :: (t2 ++ [a]) from rfl]
        rw [rotate_one_cons]
        rw [show b :: (t2 ++ [a]) = (b :: t2) ++ [a] from rfl]
        rw [List.zip_append (by simp)]
        simp
      have h2 : edgesOf (a :: b :: t2) = (a, b) :: (b :: t2).zip (t2 ++ [a]) := by
        unfold edgesOf
        rw [rotate_one_cons]
        rfl
      rw [h1, h2]
      simp [Nat.add_comm]

theorem crossings_rotate (px py : ℚ) (n : Nat) (W : List GPt) :
    crossings px py (W.rotate n) = crossings px py W := by
  induction n generalizing W with
  | zero => rw [List.rotate_zero]
  | succ m ih =>
    have h : W.rotate (m + 1) = (W.rotate 1).rotate m := by
      rw [List.rotate_rotate, Nat.add_comm]
    rw [h, ih (W.rotate 1), crossings_rotate_one]

theorem gPolygonContains_parity (V : List GPt) (px py : ℚ) :
    gPolygonContains V px py =
      if V.length < 2 then false else decide (crossings px py V % 2 = 1) := by
  unfold gPolygonContains
  by_cases hlen : V.length < 2
  · simp [hlen]
  · by_cases heq : V.head? = V.getLast?
    · simp only [if_neg hlen, if_pos heq]
      cases V with
      | nil => exact absurd (by simp) hlen
      | cons v t =>
        have hne : (v :: t) ≠ [] := List.cons_ne_nil v t
        have hLast : v = (v :: t).getLast hne := by
          have h2 : some v = (v :: t).getLast? := by simpa using heq
          rw [List.getLast?_eq_getLast _ hne] at h2
          exact Option.some.inj h2
        have hconcat := List.dropLast_concat_getLast hne
        rw [← hLast] at hconcat
        cases hW : (v :: t).dropLast with
        | nil =>
          exfalso
          have hlen2 : (v :: t).dropLast.length = t.length := by simp
          rw [hW] at hlen2
          simp only [List.length_nil] at hlen2
          apply hlen
          simp [← hlen2]
        | cons w W2 =>
          rw [hW] at hconcat
          have hw : w = v := by
            have := congrArg List.head? hconcat
            simpa using this
          subst hw
          rw [← hconcat, crossings_concat]
    · simp [hlen, heq]

/-- Claim C8: the polygon containment answer is unchanged by every cyclic
rotation of the vertex list and by appending a duplicate of the first
vertex as the last vertex. -/
theorem polygon_contains_ring_invariance (V : List GPt) (px py : ℚ) (n : Nat) :
    gPolygonContains (V.rotate n) px py = gPolygonContains V px py ∧
    (∀ v t, V = v :: t →
      gPolygonContains (V ++ [v]) px py = gPolygonContains V px py) := by
  constructor
  · rw [gPolygonContains_parity, gPolygonContains_parity, List.length_rotate,
      crossings_rotate]
  · rintro v t rfl
    rw [gPolygonContains_parity, gPolygonContains_parity, crossings_concat]
    by_cases ht : t = []
    · subst ht
      norm_num [crossings, edgesOf, rotate_one_cons, crossCond]
    · have h1 : ¬ (v :: t).length < 2 := by
        simp only [List.length_cons, not_lt]
        have : t.length ≠ 0 := fun hc => ht (List.length_eq_zero.mp hc)
        omega
      have h2 : ¬ ((v :: t) ++ [v]).length < 2 := by
        simp only [List.length_append, List.length_cons, not_lt]
        omega
      rw [if_neg h1, if_neg h2]

/-- Claim C8, witness: the invariance applied to the unit-square-like
polygon (0,0), (10,0), (10,10), (0,10) rotated by one and closed with a
duplicate first vertex. -/
theorem polygon_contains_ring_invariance_witness :
    gPolygonContains ([⟨0, 0⟩, ⟨10, 0⟩, ⟨10, 10⟩, ⟨0, 10⟩].rotate 1) 5 5 =
      gPolygonContains [⟨0, 0⟩, ⟨10, 0⟩, ⟨10, 10⟩, ⟨0, 10⟩] 5 5 ∧
    gPolygonContains ([⟨0, 0⟩, ⟨10, 0⟩, ⟨10, 10⟩, ⟨0, 10⟩] ++ [⟨0, 0⟩]) 5 5 =
      gPolygonContains [⟨0, 0⟩, ⟨10, 0⟩, ⟨10, 10⟩, ⟨0, 10⟩] 5 5 := by
  have h := polygon_contains_ring_invariance [⟨0, 0⟩, ⟨10, 0⟩, ⟨10, 10⟩, ⟨0, 10⟩] 5 5 1
  exact ⟨h.1, h.2 ⟨0, 0⟩ [⟨10, 0⟩, ⟨10, 10⟩, ⟨0, 10⟩] rfl⟩

end GObjects
